import Mathlib

/-!
Verification of the core of `src/patch-rtl.js` (Claude Code VS Code RTL patch).

The JavaScript source is shallowly embedded: stylesheet content is a `List
Char`, the filesystem visible to one patch operation (the target file and its
sibling backup file) is the two-field state `FsState`, and each lifecycle
operation (`applyPatch`, `revertPatch`, `checkPatch`) is a pure function from
state to result-and-state.  JS `String.prototype.indexOf` becomes `firstIdx`
(`none` standing for `-1`), `String.prototype.includes` becomes `includes`,
`substring`/`slice` become `List.take`/`List.drop`, `Array.prototype.join
("\n")` becomes `joinNL`, and the JS error strings are represented by the
inductive `PatchError` (one constructor per distinct error message of the
source).

The one regular expression of the core,
`\.NAME_([A-Za-z0-9]+)(?=[\s{.,:\[>~+])` (built in `extractClassMap` for each
semantic class name, and run once, i.e. taking the leftmost match), is
embedded as `matchKeyAt`/`findKey`: at each position, the literal `.NAME_`
must match, then the capture `[A-Za-z0-9]+` takes the maximal alphanumeric
run, and the lookahead requires the very next character to be in the boundary
class.  Backtracking the greedy `+` can never produce a match that the
maximal run misses, because shortening the run puts an alphanumeric character
under the lookahead and no alphanumeric character is in the boundary class;
so leftmost-with-greedy-capture is exactly `findKey`.
-/

set_option maxHeartbeats 4000000
set_option maxRecDepth 16000

/-- Character list of a string literal (stylesheet text is modelled as `List Char`). -/
def str (s : String) : List Char := s.data

/-- The regex class `[A-Za-z0-9]` (code points of `A`-`Z`, `a`-`z`, `0`-`9`). -/
def isAlnum (c : Char) : Bool :=
  decide ((65 ≤ c.toNat ∧ c.toNat ≤ 90) ∨ (97 ≤ c.toNat ∧ c.toNat ≤ 122) ∨
    (48 ≤ c.toNat ∧ c.toNat ≤ 57))

/-- The regex class `\s` of ECMAScript (tab, LF, VT, FF, CR, space, NBSP,
Ogham space, the U+2000 to U+200A range, LS, PS, NNBSP, MMSP, ideographic
space, BOM). -/
def jsWhitespace (c : Char) : Bool :=
  decide (c.toNat = 9 ∨ c.toNat = 10 ∨ c.toNat = 11 ∨ c.toNat = 12 ∨ c.toNat = 13 ∨
    c.toNat = 32 ∨ c.toNat = 160 ∨ c.toNat = 5760 ∨ (8192 ≤ c.toNat ∧ c.toNat ≤ 8202) ∨
    c.toNat = 8232 ∨ c.toNat = 8233 ∨ c.toNat = 8239 ∨ c.toNat = 8287 ∨
    c.toNat = 12288 ∨ c.toNat = 65279)

/-- The boundary lookahead class `[\s{.,:\[>~+]` of `extractClassMap`'s regex:
whitespace or one of the code points of `\x7b` `.` `,` `:` `[` `>` `~` `+`. -/
def isBoundary (c : Char) : Bool :=
  jsWhitespace c ||
    decide (c.toNat = 123 ∨ c.toNat = 46 ∨ c.toNat = 44 ∨ c.toNat = 58 ∨
      c.toNat = 91 ∨ c.toNat = 62 ∨ c.toNat = 126 ∨ c.toNat = 43)

/-- JS `content.indexOf(pat)`: index of the leftmost occurrence of `pat` in
`content`, `none` when there is none (JS `-1`). -/
def firstIdx (pat : List Char) : List Char → Option Nat
  | [] => if pat.isPrefixOf ([] : List Char) then some 0 else none
  | s@(_ :: rest) => if pat.isPrefixOf s then some 0 else (firstIdx pat rest).map (· + 1)

/-- JS `content.includes(pat)`. -/
def includes (content pat : List Char) : Bool := (firstIdx pat content).isSome

/-- Number of positions of `s` at which `pat` occurs (used to state the
marker-count invariant; for the nonempty marker strings this is the number of
occurrences of the marker). -/
def countOcc (pat : List Char) : List Char → Nat
  | [] => 0
  | s@(_ :: rest) => (if pat.isPrefixOf s then 1 else 0) + countOcc pat rest

/-- JS `s.replace(/\n+$/, "")`: remove the maximal run of trailing newline
characters. -/
def rstripNewlines (l : List Char) : List Char :=
  (l.reverse.dropWhile (fun c => c == '\n')).reverse

/-- JS `Array.prototype.join("\n")` on a list of lines. -/
def joinNL : List (List Char) → List Char
  | [] => []
  | [l] => l
  | l :: ls => l ++ '\n' :: joinNL ls

/-- Marker comment opening the injected CSS block (`PATCH_START` of the source). -/
def PATCH_START : List Char := str "/* CLAUDE-CODE-RTL-FIX:START */"

/-- Marker comment closing the injected CSS block (`PATCH_END` of the source). -/
def PATCH_END : List Char := str "/* CLAUDE-CODE-RTL-FIX:END */"

/-- The fixed list `patterns` of semantic class names of `extractClassMap`,
in source order. -/
def patterns : List (List Char) :=
  [str "message", str "messagesContainer", str "chatContainer",
   str "userMessageContainer", str "userMessage", str "timelineMessage",
   str "emptyStateContent", str "emptyStateText", str "highlightedMessage",
   str "slashCommandMessage", str "slashCommandResultMessage",
   str "interruptedMessage", str "metaMessage", str "progressContent"]

/-- Attempt of the regex `\.NAME_([A-Za-z0-9]+)(?=[\s{.,:\[>~+])` at the first
position of `s`: the literal `.NAME_` must be a prefix, the capture is the
maximal alphanumeric run after it (must be nonempty), and the character right
after the run must be in the boundary class. -/
def matchKeyAt (name s : List Char) : Option (List Char) :=
  if ('.' :: (name ++ ['_'])).isPrefixOf s then
    let rest := s.drop (name.length + 2)
    match rest.takeWhile isAlnum, rest.dropWhile isAlnum with
    | [], _ => none
    | _ :: _, [] => none
    | c :: cs, b :: _ => if isBoundary b then some (c :: cs) else none
  else none

/-- Leftmost match of the key regex in the content (JS `regex.exec` run once):
the hash captured at the first position where `matchKeyAt` succeeds. -/
def findKey (name : List Char) : List Char → Option (List Char)
  | [] => none
  | s@(_ :: rest) =>
    match matchKeyAt name s with
    | some h => some h
    | none => findKey name rest

/-- The mapping from the fixed set of semantic class names to optional hash
suffixes (`classMap` object of the source; a missing JS property is `none`).
Fields are in the order of `patterns`. -/
structure ClassMap where
  message : Option (List Char)
  messagesContainer : Option (List Char)
  chatContainer : Option (List Char)
  userMessageContainer : Option (List Char)
  userMessage : Option (List Char)
  timelineMessage : Option (List Char)
  emptyStateContent : Option (List Char)
  emptyStateText : Option (List Char)
  highlightedMessage : Option (List Char)
  slashCommandMessage : Option (List Char)
  slashCommandResultMessage : Option (List Char)
  interruptedMessage : Option (List Char)
  metaMessage : Option (List Char)
  progressContent : Option (List Char)
deriving DecidableEq

/-- The source's `extractClassMap`: for each name of `patterns`, the capture
of the leftmost match of `\.NAME_([A-Za-z0-9]+)(?=[\s{.,:\[>~+])`. -/
def extractClassMap (cssContent : List Char) : ClassMap :=
  { message := findKey (str "message") cssContent
    messagesContainer := findKey (str "messagesContainer") cssContent
    chatContainer := findKey (str "chatContainer") cssContent
    userMessageContainer := findKey (str "userMessageContainer") cssContent
    userMessage := findKey (str "userMessage") cssContent
    timelineMessage := findKey (str "timelineMessage") cssContent
    emptyStateContent := findKey (str "emptyStateContent") cssContent
    emptyStateText := findKey (str "emptyStateText") cssContent
    highlightedMessage := findKey (str "highlightedMessage") cssContent
    slashCommandMessage := findKey (str "slashCommandMessage") cssContent
    slashCommandResultMessage := findKey (str "slashCommandResultMessage") cssContent
    interruptedMessage := findKey (str "interruptedMessage") cssContent
    metaMessage := findKey (str "metaMessage") cssContent
    progressContent := findKey (str "progressContent") cssContent }

/-- The conditional-selector idiom of `generateRtlCss`:
`map.key ? `.key_${map.key}` : '[class*="key_"]'`. -/
def mkSel (exactPre fallbackSel : List Char) (o : Option (List Char)) : List Char :=
  match o with
  | some hashv => exactPre ++ hashv
  | none => fallbackSel

/-- The `messageClass` constant of `generateRtlCss`. -/
def messageClass (m : ClassMap) : List Char :=
  mkSel (str ".message_") (str "[class*=\"message_\"]") m.message

/-- The `userMsgClass` constant of `generateRtlCss`. -/
def userMsgClass (m : ClassMap) : List Char :=
  mkSel (str ".userMessage_") (str "[class*=\"userMessage_\"]") m.userMessage

/-- The `userMsgContainerClass` constant of `generateRtlCss`. -/
def userMsgContainerClass (m : ClassMap) : List Char :=
  mkSel (str ".userMessageContainer_") (str "[class*=\"userMessageContainer_\"]")
    m.userMessageContainer

/-- The `timelineClass` constant of `generateRtlCss`. -/
def timelineClass (m : ClassMap) : List Char :=
  mkSel (str ".timelineMessage_") (str "[class*=\"timelineMessage_\"]") m.timelineMessage

/-- The `slashCmdClass` constant of `generateRtlCss`. -/
def slashCmdClass (m : ClassMap) : List Char :=
  mkSel (str ".slashCommandMessage_") (str "[class*=\"slashCommandMessage_\"]")
    m.slashCommandMessage

/-- The `slashCmdResultClass` constant of `generateRtlCss`. -/
def slashCmdResultClass (m : ClassMap) : List Char :=
  mkSel (str ".slashCommandResultMessage_") (str "[class*=\"slashCommandResultMessage_\"]")
    m.slashCommandResultMessage

/-- The `interruptedClass` constant of `generateRtlCss`. -/
def interruptedClass (m : ClassMap) : List Char :=
  mkSel (str ".interruptedMessage_") (str "[class*=\"interruptedMessage_\"]")
    m.interruptedMessage

/-- The `progressClass` constant of `generateRtlCss`. -/
def progressClass (m : ClassMap) : List Char :=
  mkSel (str ".progressContent_") (str "[class*=\"progressContent_\"]") m.progressContent

/-- All lines of the `lines` array of `generateRtlCss` strictly between
`PATCH_START` (first line) and `PATCH_END` (last line), in source order
(the initial array literal plus the `lines.push(...)` arguments).  Braces of
the CSS text are written with `\x7b`/`\x7d` escapes. -/
def rtlBody (m : ClassMap) : List (List Char) :=
  [str "",
   str "/*",
   str " * RTL (Right-to-Left) text support for Claude Code",
   str " * Supports Hebrew, Arabic, Persian, Urdu, and other RTL scripts.",
   str " * Uses CSS unicode-bidi: plaintext for automatic direction detection",
   str " * per-paragraph, so mixed LTR/RTL content renders correctly.",
   str " */",
   str "",
   str "/* Auto-detect text direction on all message text content */",
   messageClass m ++ str ",",
   userMsgClass m ++ str ",",
   userMsgContainerClass m ++ str ",",
   timelineClass m ++ str ",",
   slashCmdClass m ++ str ",",
   slashCmdResultClass m ++ str ",",
   interruptedClass m ++ str ",",
   progressClass m ++ str ",",
   str "[data-testid=\"assistant-message\"] \x7b",
   str "  unicode-bidi: plaintext;",
   str "  text-align: start;",
   str "\x7d",
   str "",
   str "/* Fix user message container alignment for RTL content */",
   messageClass m ++ userMsgContainerClass m ++ str " \x7b",
   str "  text-align: start;",
   str "\x7d",
   str "",
   str "/* Ensure paragraphs and inline text respect auto-direction */",
   messageClass m ++ str " p,",
   messageClass m ++ str " li,",
   messageClass m ++ str " span,",
   messageClass m ++ str " div,",
   str "[data-testid=\"assistant-message\"] p,",
   str "[data-testid=\"assistant-message\"] li,",
   str "[data-testid=\"assistant-message\"] span,",
   str "[data-testid=\"assistant-message\"] div \x7b",
   str "  unicode-bidi: plaintext;",
   str "  text-align: start;",
   str "\x7d",
   str "",
   str "/* Preserve code blocks as LTR (code is always LTR) */",
   messageClass m ++ str " pre,",
   messageClass m ++ str " code,",
   str "[data-testid=\"assistant-message\"] pre,",
   str "[data-testid=\"assistant-message\"] code \x7b",
   str "  unicode-bidi: normal;",
   str "  direction: ltr;",
   str "  text-align: left;",
   str "\x7d",
   str "",
   str "/* Timeline dot position: use logical properties so dot stays correct in RTL */",
   timelineClass m ++ str " \x7b",
   str "  padding-inline-start: 30px;",
   str "  padding-left: unset;",
   str "\x7d",
   str "",
   timelineClass m ++ str "::before \x7b",
   str "  inset-inline-start: 9px;",
   str "  left: unset;",
   str "\x7d",
   str "",
   timelineClass m ++ str "::after \x7b",
   str "  inset-inline-start: 12px;",
   str "  left: unset;",
   str "\x7d",
   str "",
   str "/* Input area RTL support */",
   str "[class*=\"inputContainer_\"] textarea,",
   str "[class*=\"inputContainer_\"] [contenteditable] \x7b",
   str "  unicode-bidi: plaintext;",
   str "  text-align: start;",
   str "\x7d",
   str ""]

/-- The full `lines` array of `generateRtlCss`: `PATCH_START`, the body, then
`PATCH_END`. -/
def rtlLines (m : ClassMap) : List (List Char) :=
  PATCH_START :: (rtlBody m ++ [PATCH_END])

/-- The source's `generateRtlCss`: the lines joined with `"\n"`. -/
def generateRtlCss (m : ClassMap) : List Char := joinNL (rtlLines m)

/-- The three distinct error messages the source can return
(`CSS file not found: ...`, `Could not extract CSS class names ...`,
`No patch found to revert`). -/
inductive PatchError
  | notFound
  | unrecognizedFormat
  | nothingToRevert
deriving DecidableEq

/-- Result object of `applyPatch` (`{success, error}` or
`{success, classMap, backupPath}`; the backup path, a fixed derivation of the
target path, is not part of the state model). -/
structure ApplyResult where
  success : Bool
  error : Option PatchError
  classMap : Option ClassMap
deriving DecidableEq

/-- Result object of `revertPatch` (`{success, error}` or `{success, method}`;
the method is the literal JS string `"backup"` or `"strip"`). -/
structure RevertResult where
  success : Bool
  error : Option PatchError
  method : Option (List Char)
deriving DecidableEq

/-- The filesystem as seen by one lifecycle operation: the content of the
target CSS file at `cssFilePath` (`none` when the file does not exist) and
the content of the backup file at `cssFilePath + ".rtl-backup"`. -/
structure FsState where
  file : Option (List Char)
  backup : Option (List Char)
deriving DecidableEq

/-- The source's `removePatchContent`: if both markers occur, everything from
the first occurrence of `PATCH_START` (together with the newline run just
before it) through the end of the first occurrence of `PATCH_END` is excised;
otherwise the content is returned unchanged. -/
def removePatchContent (cssContent : List Char) : List Char :=
  match firstIdx PATCH_START cssContent, firstIdx PATCH_END cssContent with
  | some startIdx, some endIdx =>
      rstripNewlines (cssContent.take startIdx) ++ cssContent.drop (endIdx + PATCH_END.length)
  | _, _ => cssContent

/-- The source's `applyPatch`: fail when the file is missing; excise an
existing fragment from a working copy; resolve the class map and fail
(leaving the state untouched) when `message` is unresolved; otherwise append
the synthesized fragment after a newline, write a backup only if none exists
(the backup receives the excised working copy), and write the new content. -/
def applyPatch (s : FsState) : ApplyResult × FsState :=
  match s.file with
  | none => ({ success := false, error := some PatchError.notFound, classMap := none }, s)
  | some content =>
    let cssContent := if includes content PATCH_START then removePatchContent content else content
    match (extractClassMap cssContent).message with
    | none =>
      ({ success := false, error := some PatchError.unrecognizedFormat, classMap := none }, s)
    | some _ =>
      let rtlCss := generateRtlCss (extractClassMap cssContent)
      let patched := cssContent ++ '\n' :: rtlCss
      let backup' := match s.backup with
        | none => some cssContent
        | some b => some b
      ({ success := true, error := none, classMap := some (extractClassMap cssContent) },
       { file := some patched, backup := backup' })

/-- The source's `revertPatch`: fail when the file is missing; if a backup
exists, write its content over the file, delete the backup and report method
`"backup"`; else if the file contains the start marker, write back
`removePatchContent` of the content and report method `"strip"`; else fail. -/
def revertPatch (s : FsState) : RevertResult × FsState :=
  match s.file with
  | none => ({ success := false, error := some PatchError.notFound, method := none }, s)
  | some content =>
    match s.backup with
    | some original =>
      ({ success := true, error := none, method := some (str "backup") },
       { file := some original, backup := none })
    | none =>
      if includes content PATCH_START then
        ({ success := true, error := none, method := some (str "strip") },
         { file := some (removePatchContent content), backup := none })
      else
        ({ success := false, error := some PatchError.nothingToRevert, method := none }, s)

/-- The source's `checkPatch`: `false` for a missing file, else whether the
content contains the start marker. -/
def checkPatch (s : FsState) : Bool :=
  match s.file with
  | none => false
  | some content => includes content PATCH_START

/-- State after `n` consecutive `applyPatch` calls. -/
def applyN : Nat → FsState → FsState
  | 0, s => s
  | n + 1, s => applyN n (applyPatch s).2

/-- Content that contains neither marker (an unpatched stylesheet). -/
def cleanContent (c : List Char) : Prop :=
  firstIdx PATCH_START c = none ∧ firstIdx PATCH_END c = none

/-- A hash option whose value (if any) does not contain a slash.  Every hash
produced by `extractClassMap` is alphanumeric, hence slash-free. -/
def noSlashOpt (o : Option (List Char)) : Prop :=
  ∀ h, o = some h → ('/' : Char) ∉ h

/-- All hashes a mapping feeds into `generateRtlCss` are slash-free (the
marker comments contain a slash, so no marker can occur inside a selector
line built from such a mapping). -/
def hashesSlashFree (m : ClassMap) : Prop :=
  noSlashOpt m.message ∧ noSlashOpt m.userMessage ∧ noSlashOpt m.userMessageContainer ∧
    noSlashOpt m.timelineMessage ∧ noSlashOpt m.slashCommandMessage ∧
    noSlashOpt m.slashCommandResultMessage ∧ noSlashOpt m.interruptedMessage ∧
    noSlashOpt m.progressContent

/-- A state whose target file is some clean content with the fragment for its
own class map appended — the shape every successful `applyPatch` leaves
behind when it starts from marker-free content. -/
def patchedFile (s : FsState) : Prop :=
  ∃ d, cleanContent d ∧ s.file = some (d ++ '\n' :: generateRtlCss (extractClassMap d))

/-- Specification-level reading of one regex match of `extractClassMap` at
position `i` of `c`: the text at `i` is `.NAME_`, then the (nonempty,
alphanumeric) hash `h`, then a boundary character.  Because no alphanumeric
character is a boundary character, such an `h` is automatically the maximal
alphanumeric run at that position, i.e. exactly the regex capture. -/
def KeyOccursAt (name c : List Char) (i : Nat) (h : List Char) : Prop :=
  h ≠ [] ∧ (∀ ch ∈ h, isAlnum ch = true) ∧
    ∃ b rest, isBoundary b = true ∧ c.drop i = ('.' :: (name ++ ['_'])) ++ (h ++ b :: rest)

/-- The mapping `{message: "XYZ999"}` of the spec's missing-class fallback
scenario. -/
def m7 : ClassMap :=
  { message := some (str "XYZ999")
    messagesContainer := none
    chatContainer := none
    userMessageContainer := none
    userMessage := none
    timelineMessage := none
    emptyStateContent := none
    emptyStateText := none
    highlightedMessage := none
    slashCommandMessage := none
    slashCommandResultMessage := none
    interruptedMessage := none
    metaMessage := none
    progressContent := none }

/-! Basic facts about `isPrefixOf`, `firstIdx` and `countOcc`. -/

theorem isPrefixOf_iff_append (p l : List Char) :
    p.isPrefixOf l = true ↔ ∃ t, l = p ++ t := by
  induction p generalizing l with
  | nil => exact ⟨fun _ => ⟨l, rfl⟩, fun _ => by simp [List.isPrefixOf]⟩
  | cons c p ih =>
    cases l with
    | nil =>
      simp only [List.isPrefixOf]
      exact ⟨fun h => by simp at h, fun ⟨t, ht⟩ => by simp at ht⟩
    | cons a l =>
      simp only [List.isPrefixOf, Bool.and_eq_true, beq_iff_eq]
      constructor
      · rintro ⟨rfl, hp⟩
        obtain ⟨t, rfl⟩ := (ih l).mp hp
        exact ⟨t, rfl⟩
      · rintro ⟨t, ht⟩
        injection ht with h1 h2
        exact ⟨h1.symm, (ih l).mpr ⟨t, h2⟩⟩

theorem prefixOf_append_self (p t : List Char) : p.isPrefixOf (p ++ t) = true :=
  (isPrefixOf_iff_append p (p ++ t)).mpr ⟨t, rfl⟩

theorem prefixOf_self (p : List Char) : p.isPrefixOf p = true :=
  (isPrefixOf_iff_append p p).mpr ⟨[], by simp⟩

theorem subset_of_isPrefixOf {p l : List Char} (h : p.isPrefixOf l = true) :
    ∀ c ∈ p, c ∈ l := by
  obtain ⟨t, rfl⟩ := (isPrefixOf_iff_append p l).mp h
  intro c hc
  exact List.mem_append_left t hc

theorem firstIdx_of_prefixOf {p l : List Char} (h : p.isPrefixOf l = true) :
    firstIdx p l = some 0 := by
  cases l <;> simp [firstIdx, h]

theorem isPrefixOf_append_nl (p A G : List Char) (hp : p ≠ [])
    (hnl : ('\n' : Char) ∉ p) : p.isPrefixOf (A ++ '\n' :: G) = p.isPrefixOf A := by
  induction A generalizing p with
  | nil =>
    cases p with
    | nil => exact absurd rfl hp
    | cons c p =>
      have hc : c ≠ '\n' := fun h => hnl (h ▸ List.mem_cons_self c p)
      simp [List.isPrefixOf, hc]
  | cons a A ih =>
    cases p with
    | nil => exact absurd rfl hp
    | cons c p =>
      simp only [List.cons_append, List.isPrefixOf]
      cases p with
      | nil => simp [List.isPrefixOf]
      | cons c' p' =>
        have : ('\n' : Char) ∉ c' :: p' := fun h => hnl (List.mem_cons_of_mem c h)
        simp only [List.append_eq]
        rw [ih (c' :: p') (by simp) this]

theorem firstIdx_cons_eq_none {p : List Char} {a : Char} {rest : List Char}
    (h : firstIdx p (a :: rest) = none) :
    p.isPrefixOf (a :: rest) = false ∧ firstIdx p rest = none := by
  by_cases hp : p.isPrefixOf (a :: rest)
  · simp [firstIdx, hp] at h
  · simp only [firstIdx, hp, if_false, Bool.not_eq_true] at h ⊢
    refine ⟨by simpa using hp, ?_⟩
    cases hr : firstIdx p rest <;> simp [hr] at h ⊢

theorem firstIdx_append_nl (p A G : List Char) (hp : p ≠ [])
    (hnl : ('\n' : Char) ∉ p) (hA : firstIdx p A = none) :
    firstIdx p (A ++ '\n' :: G) = (firstIdx p G).map (· + (A.length + 1)) := by
  induction A with
  | nil =>
    have hpre : p.isPrefixOf ('\n' :: G) = false := by
      cases p with
      | nil => exact absurd rfl hp
      | cons c p =>
        have hc : c ≠ '\n' := fun h => hnl (h ▸ List.mem_cons_self c p)
        simp [List.isPrefixOf, hc]
    simp [firstIdx, hpre]
  | cons a A ih =>
    obtain ⟨hpre, hrest⟩ := firstIdx_cons_eq_none hA
    have hpre2 : p.isPrefixOf ((a :: A) ++ '\n' :: G) = false := by
      rw [isPrefixOf_append_nl p (a :: A) G hp hnl]; exact hpre
    simp only [List.cons_append] at hpre2 ⊢
    rw [firstIdx, if_neg (by simp [hpre2]), ih hrest]
    cases firstIdx p G <;> simp <;> omega

theorem countOcc_append_nl (p A G : List Char) (hp : p ≠ [])
    (hnl : ('\n' : Char) ∉ p) :
    countOcc p (A ++ '\n' :: G) = countOcc p A + countOcc p G := by
  induction A with
  | nil =>
    have hpre : p.isPrefixOf ('\n' :: G) = false := by
      cases p with
      | nil => exact absurd rfl hp
      | cons c p =>
        have hc : c ≠ '\n' := fun h => hnl (h ▸ List.mem_cons_self c p)
        simp [List.isPrefixOf, hc]
    simp [countOcc, hpre]
  | cons a A ih =>
    have hpre : p.isPrefixOf ((a :: A) ++ '\n' :: G) = p.isPrefixOf (a :: A) :=
      isPrefixOf_append_nl p (a :: A) G hp hnl
    simp only [List.cons_append] at hpre ⊢
    rw [countOcc, countOcc, hpre, ih]
    omega

theorem firstIdx_eq_none_of_not_mem {p l : List Char} {c : Char}
    (hc : c ∈ p) (hl : c ∉ l) : firstIdx p l = none := by
  induction l with
  | nil =>
    rw [firstIdx]
    split
    · next h => exact absurd (subset_of_isPrefixOf h c hc) (by simp)
    · rfl
  | cons a rest ih =>
    rw [firstIdx]
    split
    · next h => exact absurd (subset_of_isPrefixOf h c hc) hl
    · rw [ih fun h => hl (List.mem_cons_of_mem a h)]; rfl

theorem countOcc_eq_zero_of_none {p l : List Char} (h : firstIdx p l = none) :
    countOcc p l = 0 := by
  induction l with
  | nil => rfl
  | cons a rest ih =>
    obtain ⟨hpre, hrest⟩ := firstIdx_cons_eq_none h
    simp [countOcc, hpre, ih hrest]

/-! Occurrence facts for appended content and for `joinNL`. -/

theorem isPrefixOf_append_of {p A : List Char} (B : List Char)
    (h : p.isPrefixOf A = true) : p.isPrefixOf (A ++ B) = true := by
  obtain ⟨t, rfl⟩ := (isPrefixOf_iff_append p A).mp h
  rw [List.append_assoc]
  exact prefixOf_append_self p (t ++ B)

theorem includes_append_left (A B p : List Char) (h : includes A p = true) :
    includes (A ++ B) p = true := by
  induction A with
  | nil =>
    simp only [includes, firstIdx] at h
    split at h
    · next hpre =>
      obtain ⟨t, ht⟩ := (isPrefixOf_iff_append p []).mp hpre
      cases p with
      | nil => cases B <;> simp [includes, firstIdx, List.isPrefixOf]
      | cons c cs => simp at ht
    · simp at h
  | cons a A ih =>
    simp only [includes, List.cons_append, firstIdx, List.append_eq] at h ⊢
    split at h
    · next hpre =>
      rw [if_pos (by simpa using isPrefixOf_append_of B hpre)]
      rfl
    · split
      · rfl
      · have h2 : (firstIdx p A).isSome = true := by
          cases hfi : firstIdx p A with
          | none => rw [hfi] at h; simp at h
          | some k => rfl
        have h3 := ih h2
        cases hfi : firstIdx p (A ++ B) with
        | none =>
          simp only [includes] at h3
          rw [hfi] at h3
          exact absurd h3 (by simp)
        | some k => rfl

theorem includes_append_right (A B p : List Char) (h : includes B p = true) :
    includes (A ++ B) p = true := by
  induction A with
  | nil => simpa using h
  | cons a A ih =>
    simp only [includes, List.cons_append, firstIdx, List.append_eq] at ih ⊢
    split
    · rfl
    · cases hfi : firstIdx p (A ++ B) with
      | none => rw [hfi] at ih; exact absurd ih (by simp)
      | some k => rfl

theorem joinNL_cons (l : List Char) (ls : List (List Char)) (h : ls ≠ []) :
    joinNL (l :: ls) = l ++ '\n' :: joinNL ls := by
  cases ls with
  | nil => exact absurd rfl h
  | cons l' ls' => rfl

theorem includes_joinNL_of_mem (L : List (List Char)) (l p : List Char)
    (hl : l ∈ L) (hp : includes l p = true) : includes (joinNL L) p = true := by
  induction L with
  | nil => cases hl
  | cons l0 L ih =>
    cases L with
    | nil =>
      rcases List.mem_cons.mp hl with rfl | h
      · exact hp
      · cases h
    | cons l1 L' =>
      rw [joinNL_cons l0 (l1 :: L') (by simp)]
      rcases List.mem_cons.mp hl with rfl | h
      · exact includes_append_left _ _ _ hp
      · have h1 : includes ('\n' :: joinNL (l1 :: L')) p = true := by
          have := includes_append_right ['\n'] (joinNL (l1 :: L')) p (ih h)
          simpa using this
        exact includes_append_right l0 _ p h1

theorem firstIdx_none_append_left {A B p : List Char}
    (h : firstIdx p (A ++ B) = none) : firstIdx p A = none := by
  by_cases hA : firstIdx p A = none
  · exact hA
  · have h1 : includes A p = true := by
      simp only [includes, Option.isSome_iff_ne_none]
      simpa using hA
    have h2 := includes_append_left A B p h1
    simp only [includes, Option.isSome_iff_ne_none] at h2
    exact absurd h h2

theorem firstIdx_joinNL_none (p : List Char) (hp : p ≠ [])
    (hnl : ('\n' : Char) ∉ p) (L : List (List Char))
    (hL : ∀ l ∈ L, firstIdx p l = none) : firstIdx p (joinNL L) = none := by
  induction L with
  | nil =>
    rw [joinNL, firstIdx]
    rw [if_neg]
    intro hpre
    obtain ⟨t, ht⟩ := (isPrefixOf_iff_append p []).mp hpre
    cases p with
    | nil => exact hp rfl
    | cons c cs => simp at ht
  | cons l0 L ih =>
    cases L with
    | nil => exact hL l0 (by simp)
    | cons l1 L' =>
      rw [joinNL_cons l0 (l1 :: L') (by simp)]
      rw [firstIdx_append_nl p l0 _ hp hnl (hL l0 (by simp))]
      rw [ih fun l hl => hL l (List.mem_cons_of_mem l0 hl)]
      rfl

theorem firstIdx_joinNL_last (p : List Char) (hp : p ≠ [])
    (hnl : ('\n' : Char) ∉ p) (B : List (List Char))
    (hB : ∀ l ∈ B, firstIdx p l = none) :
    ∃ k, firstIdx p (joinNL (B ++ [p])) = some k ∧
      k + p.length = (joinNL (B ++ [p])).length := by
  induction B with
  | nil =>
    refine ⟨0, ?_, by simp [joinNL]⟩
    simpa [joinNL] using firstIdx_of_prefixOf (prefixOf_self p)
  | cons l0 B ih =>
    obtain ⟨k, hk, hlen⟩ := ih fun l hl => hB l (List.mem_cons_of_mem l0 hl)
    have hne : B ++ [p] ≠ [] := by simp
    rw [List.cons_append, joinNL_cons l0 (B ++ [p]) hne]
    rw [firstIdx_append_nl p l0 _ hp hnl (hB l0 (by simp)), hk]
    refine ⟨k + (l0.length + 1), rfl, ?_⟩
    simp only [List.length_append, List.length_cons]
    omega

theorem countOcc_joinNL (p : List Char) (hp : p ≠ [])
    (hnl : ('\n' : Char) ∉ p) (L : List (List Char)) :
    countOcc p (joinNL L) = (L.map (countOcc p)).sum := by
  induction L with
  | nil => simp [joinNL, countOcc]
  | cons l0 L ih =>
    cases L with
    | nil => simp [joinNL]
    | cons l1 L' =>
      rw [joinNL_cons l0 (l1 :: L') (by simp)]
      rw [countOcc_append_nl p l0 _ hp hnl, ih]
      simp

/-! Facts about `rstripNewlines`. -/

theorem rstrip_append_nl (C : List Char) :
    rstripNewlines (C ++ ['\n']) = rstripNewlines C := by
  simp [rstripNewlines, List.reverse_append, List.dropWhile]

theorem rstrip_eq_self {C : List Char} (h : C.getLast? ≠ some '\n') :
    rstripNewlines C = C := by
  rw [rstripNewlines]
  cases hrev : C.reverse with
  | nil =>
    have hC : C = [] := by
      have := congrArg List.reverse hrev
      simpa using this
    subst hC
    simp
  | cons r rest =>
    have hr : r ≠ '\n' := by
      intro hr
      apply h
      rw [← List.head?_reverse, hrev, hr]
      rfl
    rw [List.dropWhile_cons, if_neg (by simpa using hr), ← hrev, List.reverse_reverse]

theorem rstrip_prefix (C : List Char) : ∃ t, C = rstripNewlines C ++ t := by
  refine ⟨(C.reverse.takeWhile (fun c => c == '\n')).reverse, ?_⟩
  rw [rstripNewlines, ← List.reverse_append]
  rw [List.takeWhile_append_dropWhile (fun c => c == '\n') C.reverse]
  rw [List.reverse_reverse]

theorem cleanContent_rstrip {C : List Char} (h : cleanContent C) :
    cleanContent (rstripNewlines C) := by
  obtain ⟨t, ht⟩ := rstrip_prefix C
  obtain ⟨hS, hE⟩ := h
  rw [ht] at hS hE
  exact ⟨firstIdx_none_append_left hS, firstIdx_none_append_left hE⟩

/-! Character-class facts and `takeWhile`/`dropWhile` on a block of matching
characters. -/

theorem boundary_not_alnum {c : Char} (h : isBoundary c = true) : isAlnum c = false := by
  rw [isAlnum, decide_eq_false_iff_not]
  simp only [isBoundary, jsWhitespace, Bool.or_eq_true, decide_eq_true_eq] at h
  omega

theorem alnum_ne_of {c d : Char} (h : isAlnum c = true) (hd : isAlnum d = false) : c ≠ d := by
  intro he
  rw [he, hd] at h
  cases h

theorem takeWhile_block (p : Char → Bool) (h : List Char) (b : Char) (r : List Char)
    (hh : ∀ x ∈ h, p x = true) (hb : p b = false) :
    (h ++ b :: r).takeWhile p = h := by
  induction h with
  | nil => simp [List.takeWhile_cons, hb]
  | cons c cs ih =>
    rw [List.cons_append, List.takeWhile_cons, if_pos (hh c (by simp))]
    rw [ih fun x hx => hh x (List.mem_cons_of_mem c hx)]

theorem dropWhile_block (p : Char → Bool) (h : List Char) (b : Char) (r : List Char)
    (hh : ∀ x ∈ h, p x = true) (hb : p b = false) :
    (h ++ b :: r).dropWhile p = b :: r := by
  induction h with
  | nil => simp [List.dropWhile_cons, hb]
  | cons c cs ih =>
    rw [List.cons_append, List.dropWhile_cons, if_pos (hh c (by simp))]
    exact ih fun x hx => hh x (List.mem_cons_of_mem c hx)

theorem mem_takeWhile_pred {p : Char → Bool} {l : List Char} {x : Char}
    (h : x ∈ l.takeWhile p) : p x = true := List.mem_takeWhile_imp h

/-! The regex attempt `matchKeyAt` succeeds at a position exactly when a
boundary-terminated alphanumeric occurrence (`KeyOccursAt`) sits there. -/

theorem matchKeyAt_of_keyOccurs {name s h : List Char} (ho : KeyOccursAt name s 0 h) :
    matchKeyAt name s = some h := by
  obtain ⟨hne, hal, b, rest, hb, hs⟩ := ho
  rw [List.drop_zero] at hs
  subst hs
  have hpre : ('.' :: (name ++ ['_'])).isPrefixOf
      (('.' :: (name ++ ['_'])) ++ (h ++ b :: rest)) = true :=
    prefixOf_append_self _ _
  rw [matchKeyAt, if_pos hpre]
  have hlen : ('.' :: (name ++ ['_'])).length = name.length + 2 := by simp
  have hdrop : (('.' :: (name ++ ['_'])) ++ (h ++ b :: rest)).drop (name.length + 2)
      = h ++ b :: rest := by
    rw [← hlen, List.drop_left]
  simp only [hdrop]
  have hbna : isAlnum b = false := boundary_not_alnum hb
  rw [takeWhile_block isAlnum h b rest hal hbna, dropWhile_block isAlnum h b rest hal hbna]
  cases h with
  | nil => exact absurd rfl hne
  | cons c cs => simp [hb]

theorem keyOccurs_of_matchKeyAt {name s h : List Char} (hm : matchKeyAt name s = some h) :
    KeyOccursAt name s 0 h := by
  rw [matchKeyAt] at hm
  split at hm
  · next hpre =>
    obtain ⟨t, hts⟩ := (isPrefixOf_iff_append _ s).mp hpre
    have hlen : ('.' :: (name ++ ['_'])).length = name.length + 2 := by simp
    have hdrop : s.drop (name.length + 2) = t := by
      rw [hts, ← hlen, List.drop_left]
    rw [hdrop] at hm
    simp only [] at hm
    rcases htw : t.takeWhile isAlnum with _ | ⟨c, cs⟩ <;>
      rcases hdw : t.dropWhile isAlnum with _ | ⟨b, bs⟩ <;>
        rw [htw, hdw] at hm <;> (try simp only [] at hm)
    · exact absurd hm (by simp)
    · exact absurd hm (by simp)
    · exact absurd hm (by simp)
    · split at hm
      · next hb =>
        have hh : h = c :: cs := by
          injection hm with hm2
          exact hm2.symm
        subst hh
        refine ⟨by simp, ?_, b, bs, hb, ?_⟩
        · intro ch hch
          exact mem_takeWhile_pred (htw ▸ hch)
        · rw [List.drop_zero, hts]
          have ht : t = (c :: cs) ++ b :: bs := by
            conv_lhs => rw [← List.takeWhile_append_dropWhile isAlnum t]
            rw [htw, hdw]
          rw [ht]
      · exact absurd hm (by simp)
  · exact absurd hm (by simp)

theorem findKey_hash_alnum {name c h : List Char} (hf : findKey name c = some h) :
    ∀ ch ∈ h, isAlnum ch = true := by
  induction c with
  | nil => exact absurd hf (by simp [findKey])
  | cons a rest ih =>
    rw [findKey] at hf
    rcases hma : matchKeyAt name (a :: rest) with _ | h' <;> rw [hma] at hf
    · exact ih hf
    · have := keyOccurs_of_matchKeyAt hma
      obtain ⟨_, hal, _⟩ := this
      injection hf with hf'
      exact hf' ▸ hal

theorem findKey_first {name c : List Char} {i : Nat} {h : List Char}
    (ho : KeyOccursAt name c i h)
    (hmin : ∀ j h', KeyOccursAt name c j h' → i ≤ j) :
    findKey name c = some h := by
  induction c generalizing i with
  | nil =>
    obtain ⟨_, _, b, rest, _, hs⟩ := ho
    simp at hs
  | cons a t ih =>
    cases i with
    | zero =>
      rw [findKey, matchKeyAt_of_keyOccurs ho]
    | succ i' =>
      have hm0 : matchKeyAt name (a :: t) = none := by
        rcases hma : matchKeyAt name (a :: t) with _ | h0
        · rfl
        · have := hmin 0 h0 (keyOccurs_of_matchKeyAt hma)
          omega
      rw [findKey, hm0]
      have ho' : KeyOccursAt name t i' h := by
        obtain ⟨h1, h2, b, rest, hb, hs⟩ := ho
        exact ⟨h1, h2, b, rest, hb, by rw [← hs]; rfl⟩
      refine ih ho' ?_
      intro j h' hj
      obtain ⟨h1, h2, b, rest, hb, hs⟩ := hj
      have : KeyOccursAt name (a :: t) (j + 1) h' :=
        ⟨h1, h2, b, rest, hb, by rw [← hs]; rfl⟩
      have := hmin (j + 1) h' this
      omega

theorem findKey_sound {name c h : List Char} (hf : findKey name c = some h) :
    ∃ i, KeyOccursAt name c i h := by
  induction c with
  | nil => exact absurd hf (by simp [findKey])
  | cons a t ih =>
    rw [findKey] at hf
    rcases hma : matchKeyAt name (a :: t) with _ | h' <;> rw [hma] at hf
    · obtain ⟨i, h1, h2, b, rest, hb, hs⟩ := ih hf
      exact ⟨i + 1, h1, h2, b, rest, hb, by rw [← hs]; rfl⟩
    · injection hf with hf'
      subst hf'
      exact ⟨0, keyOccurs_of_matchKeyAt hma⟩

theorem findKey_none_of_no_dot {name s : List Char} (h : ('.' : Char) ∉ s) :
    findKey name s = none := by
  induction s with
  | nil => rfl
  | cons a rest ih =>
    rw [findKey]
    have hma : matchKeyAt name (a :: rest) = none := by
      rw [matchKeyAt]
      rw [if_neg]
      intro hpre
      have := subset_of_isPrefixOf hpre '.' (by simp)
      exact h this
    rw [hma]
    exact ih fun hm => h (List.mem_cons_of_mem a hm)

/-! No marker occurs in any line of the fragment body: the markers contain a
slash, selector lines built from slash-free hashes contain none, and the
fixed comment lines are checked by computation. -/

theorem noSlash_append {a b : List Char} (ha : ('/' : Char) ∉ a)
    (hb : ('/' : Char) ∉ b) : ('/' : Char) ∉ a ++ b := fun h =>
  (List.mem_append.mp h).elim (fun x => ha x) (fun x => hb x)

theorem noSlash_mkSel (pre fb : List Char) {o : Option (List Char)}
    (hpre : ('/' : Char) ∉ pre) (hfb : ('/' : Char) ∉ fb) (ho : noSlashOpt o) :
    ('/' : Char) ∉ mkSel pre fb o := by
  cases o with
  | none => exact hfb
  | some hv => exact noSlash_append hpre (ho hv rfl)

theorem noSlash_messageClass {m : ClassMap} (hm : hashesSlashFree m) :
    ('/' : Char) ∉ messageClass m :=
  noSlash_mkSel _ _ (by decide) (by decide) hm.1

theorem noSlash_userMsgClass {m : ClassMap} (hm : hashesSlashFree m) :
    ('/' : Char) ∉ userMsgClass m :=
  noSlash_mkSel _ _ (by decide) (by decide) hm.2.1

theorem noSlash_userMsgContainerClass {m : ClassMap} (hm : hashesSlashFree m) :
    ('/' : Char) ∉ userMsgContainerClass m :=
  noSlash_mkSel _ _ (by decide) (by decide) hm.2.2.1

theorem noSlash_timelineClass {m : ClassMap} (hm : hashesSlashFree m) :
    ('/' : Char) ∉ timelineClass m :=
  noSlash_mkSel _ _ (by decide) (by decide) hm.2.2.2.1

theorem noSlash_slashCmdClass {m : ClassMap} (hm : hashesSlashFree m) :
    ('/' : Char) ∉ slashCmdClass m :=
  noSlash_mkSel _ _ (by decide) (by decide) hm.2.2.2.2.1

theorem noSlash_slashCmdResultClass {m : ClassMap} (hm : hashesSlashFree m) :
    ('/' : Char) ∉ slashCmdResultClass m :=
  noSlash_mkSel _ _ (by decide) (by decide) hm.2.2.2.2.2.1

theorem noSlash_interruptedClass {m : ClassMap} (hm : hashesSlashFree m) :
    ('/' : Char) ∉ interruptedClass m :=
  noSlash_mkSel _ _ (by decide) (by decide) hm.2.2.2.2.2.2.1

theorem noSlash_progressClass {m : ClassMap} (hm : hashesSlashFree m) :
    ('/' : Char) ∉ progressClass m :=
  noSlash_mkSel _ _ (by decide) (by decide) hm.2.2.2.2.2.2.2

theorem markerFree_of_noSlash {l : List Char} (h : ('/' : Char) ∉ l) :
    firstIdx PATCH_START l = none ∧ firstIdx PATCH_END l = none :=
  ⟨firstIdx_eq_none_of_not_mem (by decide) h, firstIdx_eq_none_of_not_mem (by decide) h⟩

theorem noSlashOpt_findKey (name c : List Char) : noSlashOpt (findKey name c) := by
  intro h heq hmem
  have := findKey_hash_alnum heq '/' hmem
  exact absurd this (by decide)

theorem hashesSlashFree_extract (c : List Char) : hashesSlashFree (extractClassMap c) :=
  ⟨noSlashOpt_findKey _ c, noSlashOpt_findKey _ c, noSlashOpt_findKey _ c,
   noSlashOpt_findKey _ c, noSlashOpt_findKey _ c, noSlashOpt_findKey _ c,
   noSlashOpt_findKey _ c, noSlashOpt_findKey _ c⟩

theorem rtlBody_markerFree (m : ClassMap) (hm : hashesSlashFree m) :
    ∀ l ∈ rtlBody m, firstIdx PATCH_START l = none ∧ firstIdx PATCH_END l = none := by
  have hmsg := noSlash_messageClass hm
  have husr := noSlash_userMsgClass hm
  have husrc := noSlash_userMsgContainerClass hm
  have htl := noSlash_timelineClass hm
  have hsc := noSlash_slashCmdClass hm
  have hscr := noSlash_slashCmdResultClass hm
  have hint := noSlash_interruptedClass hm
  have hprog := noSlash_progressClass hm
  intro l hl
  simp only [rtlBody, List.mem_cons, List.not_mem_nil, or_false] at hl
  rcases hl with rfl | rfl | rfl | rfl | rfl | rfl | rfl | rfl | rfl | rfl | rfl | rfl | rfl | rfl | rfl | rfl | rfl | rfl | rfl | rfl | rfl | rfl | rfl | rfl | rfl | rfl | rfl | rfl | rfl | rfl | rfl | rfl | rfl | rfl | rfl | rfl | rfl | rfl | rfl | rfl | rfl | rfl | rfl | rfl | rfl | rfl | rfl | rfl | rfl | rfl | rfl | rfl | rfl | rfl | rfl | rfl | rfl | rfl | rfl | rfl | rfl | rfl | rfl | rfl | rfl | rfl | rfl | rfl | rfl | rfl | rfl | rfl | rfl
  all_goals first
    | decide
    | exact markerFree_of_noSlash (noSlash_append hmsg (by decide))
    | exact markerFree_of_noSlash (noSlash_append husr (by decide))
    | exact markerFree_of_noSlash (noSlash_append husrc (by decide))
    | exact markerFree_of_noSlash (noSlash_append htl (by decide))
    | exact markerFree_of_noSlash (noSlash_append hsc (by decide))
    | exact markerFree_of_noSlash (noSlash_append hscr (by decide))
    | exact markerFree_of_noSlash (noSlash_append hint (by decide))
    | exact markerFree_of_noSlash (noSlash_append hprog (by decide))
    | exact markerFree_of_noSlash (noSlash_append (noSlash_append hmsg husrc) (by decide))

/-! Structure of the synthesized fragment: it starts with `PATCH_START`, its
only occurrence of `PATCH_END` is the final line, and it contains exactly one
occurrence of `PATCH_START`. -/

theorem generateRtlCss_eq (m : ClassMap) :
    generateRtlCss m = PATCH_START ++ '\n' :: joinNL (rtlBody m ++ [PATCH_END]) := by
  rw [generateRtlCss, rtlLines, joinNL_cons _ _ (by simp)]

theorem fragment_start (m : ClassMap) :
    firstIdx PATCH_START (generateRtlCss m) = some 0 := by
  rw [generateRtlCss_eq]
  exact firstIdx_of_prefixOf (prefixOf_append_self _ _)

theorem fragment_end (m : ClassMap) (hm : hashesSlashFree m) :
    ∃ k, firstIdx PATCH_END (generateRtlCss m) = some k ∧
      k + PATCH_END.length = (generateRtlCss m).length := by
  have hB : ∀ l ∈ PATCH_START :: rtlBody m, firstIdx PATCH_END l = none := by
    intro l hl
    rcases List.mem_cons.mp hl with rfl | h
    · decide
    · exact (rtlBody_markerFree m hm l h).2
  have hlast := firstIdx_joinNL_last PATCH_END (by decide) (by decide)
    (PATCH_START :: rtlBody m) hB
  rw [generateRtlCss, rtlLines]
  simpa using hlast

theorem fragment_countStart (m : ClassMap) (hm : hashesSlashFree m) :
    countOcc PATCH_START (generateRtlCss m) = 1 := by
  rw [generateRtlCss, countOcc_joinNL PATCH_START (by decide) (by decide), rtlLines]
  simp only [List.map_cons, List.map_append, List.map_nil, List.sum_cons,
    List.sum_append, List.sum_nil]
  have hbody : ((rtlBody m).map (countOcc PATCH_START)).sum = 0 := by
    apply List.sum_eq_zero
    intro x hx
    obtain ⟨l, hl, rfl⟩ := List.mem_map.mp hx
    exact countOcc_eq_zero_of_none (rtlBody_markerFree m hm l hl).1
  rw [hbody]
  decide

/-! The excision round trip: appending a fragment to marker-free content and
excising it gives back the content with its trailing newlines stripped. -/

theorem removePatch_append (C : List Char) (m : ClassMap)
    (hS : firstIdx PATCH_START C = none) (hE : firstIdx PATCH_END C = none)
    (hm : hashesSlashFree m) :
    removePatchContent (C ++ '\n' :: generateRtlCss m) = rstripNewlines C := by
  obtain ⟨k, hk, hklen⟩ := fragment_end m hm
  have hstart : firstIdx PATCH_START (C ++ '\n' :: generateRtlCss m)
      = some (C.length + 1) := by
    rw [firstIdx_append_nl PATCH_START C _ (by decide) (by decide) hS, fragment_start m]
    simp
  have hend : firstIdx PATCH_END (C ++ '\n' :: generateRtlCss m)
      = some (k + (C.length + 1)) := by
    rw [firstIdx_append_nl PATCH_END C _ (by decide) (by decide) hE, hk]
    simp
  rw [removePatchContent, hstart, hend]
  simp only []
  have h1 : (C ++ '\n' :: generateRtlCss m).take (C.length + 1) = C ++ ['\n'] := by
    have hsplit : C ++ '\n' :: generateRtlCss m = (C ++ ['\n']) ++ generateRtlCss m := by
      simp
    rw [hsplit]
    have hlen : (C ++ ['\n']).length = C.length + 1 := by simp
    rw [← hlen, List.take_left]
  have h2 : (C ++ '\n' :: generateRtlCss m).drop (k + (C.length + 1) + PATCH_END.length)
      = [] := by
    apply List.drop_eq_nil_of_le
    simp only [List.length_append, List.length_cons]
    omega
  rw [h1, h2, rstrip_append_nl, List.append_nil]

/-! Behaviour of `applyPatch` on the three relevant content shapes. -/

theorem applyPatch_unrecognized (C : List Char) (b : Option (List Char))
    (hm : (extractClassMap
        (if includes C PATCH_START then removePatchContent C else C)).message = none) :
    applyPatch ⟨some C, b⟩ =
      ({ success := false, error := some PatchError.unrecognizedFormat, classMap := none },
       ⟨some C, b⟩) := by
  rw [applyPatch]
  simp only [hm]

theorem applyPatch_success (C D : List Char) (b : Option (List Char)) (h0 : List Char)
    (hcss : (if includes C PATCH_START then removePatchContent C else C) = D)
    (hmsg : (extractClassMap D).message = some h0) :
    applyPatch ⟨some C, b⟩ =
      ({ success := true, error := none, classMap := some (extractClassMap D) },
       ⟨some (D ++ '\n' :: generateRtlCss (extractClassMap D)), some (b.getD D)⟩) := by
  cases b with
  | none => rw [applyPatch]; simp only [hcss, hmsg, Option.getD_none]
  | some bb => rw [applyPatch]; simp only [hcss, hmsg, Option.getD_some]

theorem includes_of_firstIdx_none {C : List Char} {p : List Char}
    (h : firstIdx p C = none) : includes C p = false := by
  simp [includes, h]

theorem fragment_includes_start (d : List Char) (m : ClassMap) :
    includes (d ++ '\n' :: generateRtlCss m) PATCH_START = true := by
  have h1 : includes (generateRtlCss m) PATCH_START = true := by
    simp [includes, fragment_start]
  have h2 := includes_append_right (d ++ ['\n']) _ PATCH_START h1
  simpa using h2

theorem applyPatch_repatch (d : List Char) (bb : Option (List Char)) (hd : cleanContent d)
    (h0 : List Char) (hmsg : (extractClassMap (rstripNewlines d)).message = some h0) :
    applyPatch ⟨some (d ++ '\n' :: generateRtlCss (extractClassMap d)), bb⟩ =
      ({ success := true, error := none,
         classMap := some (extractClassMap (rstripNewlines d)) },
       ⟨some (rstripNewlines d ++ '\n' ::
          generateRtlCss (extractClassMap (rstripNewlines d))),
        some (bb.getD (rstripNewlines d))⟩) := by
  apply applyPatch_success _ _ _ h0 _ hmsg
  rw [if_pos (fragment_includes_start d _)]
  exact removePatch_append d _ hd.1 hd.2 (hashesSlashFree_extract d)

theorem applyPatch_repatch_fail (d : List Char) (bb : Option (List Char))
    (hd : cleanContent d)
    (hmsg : (extractClassMap (rstripNewlines d)).message = none) :
    applyPatch ⟨some (d ++ '\n' :: generateRtlCss (extractClassMap d)), bb⟩ =
      ({ success := false, error := some PatchError.unrecognizedFormat, classMap := none },
       ⟨some (d ++ '\n' :: generateRtlCss (extractClassMap d)), bb⟩) := by
  apply applyPatch_unrecognized
  rw [if_pos (fragment_includes_start d _)]
  rw [removePatch_append d _ hd.1 hd.2 (hashesSlashFree_extract d)]
  exact hmsg

/-! The patched-state invariant: it is established by a successful apply from
clean content, preserved by further successful applies, and forces exactly
one occurrence of the start marker. -/

theorem patchedFile_apply_clean (C : List Char) (b : Option (List Char))
    (hC : cleanContent C)
    (hsucc : (applyPatch ⟨some C, b⟩).1.success = true) :
    patchedFile (applyPatch ⟨some C, b⟩).2 := by
  have hif : (if includes C PATCH_START then removePatchContent C else C) = C := by
    rw [includes_of_firstIdx_none hC.1]
    simp
  rcases hmsg : (extractClassMap C).message with _ | h0
  · rw [applyPatch_unrecognized C b (by rw [hif]; exact hmsg)] at hsucc
    simp at hsucc
  · rw [applyPatch_success C C b h0 hif hmsg]
    exact ⟨C, hC, rfl⟩

theorem patchedFile_applyPatch (s : FsState) (hp : patchedFile s)
    (hsucc : (applyPatch s).1.success = true) : patchedFile (applyPatch s).2 := by
  rcases s with ⟨f, b⟩
  obtain ⟨d, hd, hfile⟩ := hp
  simp only [] at hfile
  subst hfile
  rcases hmsg : (extractClassMap (rstripNewlines d)).message with _ | h0
  · rw [applyPatch_repatch_fail d b hd hmsg] at hsucc
    simp at hsucc
  · rw [applyPatch_repatch d b hd h0 hmsg]
    exact ⟨rstripNewlines d, cleanContent_rstrip hd, rfl⟩

theorem patchedFile_count (s : FsState) (hp : patchedFile s) :
    countOcc PATCH_START (s.file.getD []) = 1 := by
  obtain ⟨d, hd, hfile⟩ := hp
  rw [hfile]
  simp only [Option.getD_some]
  rw [countOcc_append_nl PATCH_START d _ (by decide) (by decide)]
  rw [countOcc_eq_zero_of_none hd.1, fragment_countStart _ (hashesSlashFree_extract d)]

theorem patchedFile_applyN (n : Nat) (s : FsState) (hp : patchedFile s)
    (hsucc : ∀ k, k < n → (applyPatch (applyN k s)).1.success = true) :
    patchedFile (applyN n s) := by
  induction n generalizing s with
  | zero => exact hp
  | succ n ih =>
    show patchedFile (applyN n (applyPatch s).2)
    apply ih
    · exact patchedFile_applyPatch s hp (hsucc 0 (by omega))
    · intro k hk
      exact hsucc (k + 1) (by omega)

/-! Remaining small helpers used by the claim theorems. -/

theorem takeWhile_all (p : Char → Bool) (l : List Char) (h : ∀ x ∈ l, p x = true) :
    l.takeWhile p = l := by
  induction l with
  | nil => rfl
  | cons a t ih =>
    rw [List.takeWhile_cons, if_pos (h a (by simp))]
    rw [ih fun x hx => h x (List.mem_cons_of_mem a hx)]

theorem dropWhile_all (p : Char → Bool) (l : List Char) (h : ∀ x ∈ l, p x = true) :
    l.dropWhile p = [] := by
  induction l with
  | nil => rfl
  | cons a t ih =>
    rw [List.dropWhile_cons, if_pos (h a (by simp))]
    exact ih fun x hx => h x (List.mem_cons_of_mem a hx)

theorem includes_self_append (p t : List Char) : includes (p ++ t) p = true := by
  simp [includes, firstIdx_of_prefixOf (prefixOf_append_self p t)]

theorem includes_fragment_line (m : ClassMap) (l p : List Char) (hl : l ∈ rtlLines m)
    (hp : includes l p = true) : includes (generateRtlCss m) p = true :=
  includes_joinNL_of_mem (rtlLines m) l p hl hp

/-! Claim theorems. -/

/-- Claim C1, counterexample: the round trip is not byte-identical for every
unpatched content with a resolvable `message` key — content ending in a
newline loses that newline, because `removePatchContent` strips the whole
trailing newline run before the start marker, not just the separator added by
`applyPatch`.  The content `".message_a\n"` is marker-free and resolves
`message`, yet excising the appended fragment returns `".message_a"`. -/
theorem c1_roundtrip_counterexample :
    (extractClassMap (str ".message_a\n")).message.isSome = true ∧
    firstIdx PATCH_START (str ".message_a\n") = none ∧
    firstIdx PATCH_END (str ".message_a\n") = none ∧
    removePatchContent (str ".message_a\n" ++ '\n' ::
        generateRtlCss (extractClassMap (str ".message_a\n")))
      ≠ str ".message_a\n" := by
  refine ⟨by decide, by decide, by decide, ?_⟩
  rw [removePatch_append _ _ (by decide) (by decide) (hashesSlashFree_extract _)]
  decide

/-- Claim C1, amended: for every content `C` containing neither marker, in
which the mandatory `message` key resolves, and which does not end in a
newline character, excising the fragment from the result of appending the
synthesized fragment is byte-identical to `C`. -/
theorem c1_roundtrip_amended (C : List Char)
    (hS : firstIdx PATCH_START C = none) (hE : firstIdx PATCH_END C = none)
    (hmsg : (extractClassMap C).message.isSome = true)
    (hnl : C.getLast? ≠ some '\n') :
    removePatchContent (C ++ '\n' :: generateRtlCss (extractClassMap C)) = C := by
  rw [removePatch_append C _ hS hE (hashesSlashFree_extract C)]
  exact rstrip_eq_self hnl

/-- Witness for the amended C1 at the concrete content `".message_a "`. -/
theorem c1_roundtrip_amended_witness :
    removePatchContent (str ".message_a " ++ '\n' ::
        generateRtlCss (extractClassMap (str ".message_a "))) = str ".message_a " :=
  c1_roundtrip_amended (str ".message_a ") (by decide) (by decide) (by decide) (by decide)

/-- Claim C2: when the (fragment-free) working copy of an existing file
yields no `message` entry, `applyPatch` returns the unrecognized-format
failure and the state — file content and backup — is exactly the one before
the call (no write occurs, including no backup write). -/
theorem c2_unrecognized_fails_closed (C : List Char) (b : Option (List Char))
    (hm : (extractClassMap
        (if includes C PATCH_START then removePatchContent C else C)).message = none) :
    applyPatch ⟨some C, b⟩ =
      ({ success := false, error := some PatchError.unrecognizedFormat, classMap := none },
       ⟨some C, b⟩) :=
  applyPatch_unrecognized C b hm

/-- Witness for C2 at the concrete content `".foo{color:red}"`. -/
theorem c2_unrecognized_witness :
    applyPatch ⟨some (str ".foo\x7bcolor:red\x7d"), none⟩ =
      ({ success := false, error := some PatchError.unrecognizedFormat, classMap := none },
       ⟨some (str ".foo\x7bcolor:red\x7d"), none⟩) :=
  c2_unrecognized_fails_closed _ none (by decide)

/-- Claim C3, counterexample: apply-then-revert is not byte-identical for
every backup-less file with a resolvable `message` key — if the initial
content already contains the two markers, `applyPatch` excises that stale
fragment before taking the backup, so revert restores the excised content,
not the original.  Here apply and revert both succeed, yet the final content
differs from the initial one. -/
theorem c3_revert_counterexample :
    (extractClassMap (str ".message_a " ++ PATCH_START ++ PATCH_END)).message.isSome
        = true ∧
    (applyPatch ⟨some (str ".message_a " ++ PATCH_START ++ PATCH_END), none⟩).1.success
        = true ∧
    (revertPatch
        (applyPatch ⟨some (str ".message_a " ++ PATCH_START ++ PATCH_END), none⟩).2).1.success
        = true ∧
    (revertPatch
        (applyPatch ⟨some (str ".message_a " ++ PATCH_START ++ PATCH_END), none⟩).2).2.file
      ≠ some (str ".message_a " ++ PATCH_START ++ PATCH_END) := by
  have happ := applyPatch_success (str ".message_a " ++ PATCH_START ++ PATCH_END)
    (str ".message_a ") none (str "a") (by decide) (by decide)
  refine ⟨by decide, ?_, ?_, ?_⟩
  · rw [happ]
  · rw [happ]
    rw [revertPatch]
  · rw [happ]
    rw [revertPatch]
    simp only [Option.getD_none]
    decide

/-- Claim C3, amended: for every file whose content `C` contains no start
marker, with no backup present and a resolvable `message` key, `applyPatch`
followed by `revertPatch` restores content byte-identical to `C`, the revert
reports the `"backup"` method, and the backup file no longer exists. -/
theorem c3_revert_restores_amended (C : List Char) (h0 : List Char)
    (hS : firstIdx PATCH_START C = none)
    (hmsg : (extractClassMap C).message = some h0) :
    (revertPatch (applyPatch ⟨some C, none⟩).2).2 = ⟨some C, none⟩ ∧
    (revertPatch (applyPatch ⟨some C, none⟩).2).1 =
      { success := true, error := none, method := some (str "backup") } := by
  have hif : (if includes C PATCH_START then removePatchContent C else C) = C := by
    rw [includes_of_firstIdx_none hS]
    simp
  rw [applyPatch_success C C none h0 hif hmsg]
  exact ⟨rfl, rfl⟩

/-- Witness for the amended C3 at the concrete content `".message_a "`. -/
theorem c3_revert_restores_amended_witness :
    (revertPatch (applyPatch ⟨some (str ".message_a "), none⟩).2).2
        = ⟨some (str ".message_a "), none⟩ ∧
    (revertPatch (applyPatch ⟨some (str ".message_a "), none⟩).2).1 =
      { success := true, error := none, method := some (str "backup") } :=
  c3_revert_restores_amended (str ".message_a ") (str "a") (by decide) (by decide)

/-- Claim C4, counterexample: double apply does not always leave the same end
state as a single apply.  For the content `".message_a \n"` (which ends in a
newline) both applies succeed, but the second apply strips the trailing
newline of the original content before re-appending the fragment, so the file
contents after one and after two applies differ. -/
theorem c4_idempotence_counterexample :
    (applyPatch ⟨some (str ".message_a \n"), none⟩).1.success = true ∧
    (applyPatch (applyN 1 ⟨some (str ".message_a \n"), none⟩)).1.success = true ∧
    applyN 2 ⟨some (str ".message_a \n"), none⟩
      ≠ applyN 1 ⟨some (str ".message_a \n"), none⟩ := by
  have happ1 := applyPatch_success (str ".message_a \n") (str ".message_a \n") none
    (str "a") (by decide) (by decide)
  have h1 : applyN 1 ⟨some (str ".message_a \n"), none⟩ =
      ⟨some (str ".message_a \n" ++ '\n' ::
        generateRtlCss (extractClassMap (str ".message_a \n"))),
       some (str ".message_a \n")⟩ := by
    show (applyPatch ⟨some (str ".message_a \n"), none⟩).2 = _
    rw [happ1]
    rfl
  have hrs : rstripNewlines (str ".message_a \n") = str ".message_a " := by decide
  have happ2 := applyPatch_repatch (str ".message_a \n") (some (str ".message_a \n"))
    ⟨by decide, by decide⟩ (str "a") (by rw [hrs]; decide)
  have h2 : applyN 2 ⟨some (str ".message_a \n"), none⟩ =
      ⟨some (rstripNewlines (str ".message_a \n") ++ '\n' ::
        generateRtlCss (extractClassMap (rstripNewlines (str ".message_a \n")))),
       some (str ".message_a \n")⟩ := by
    show (applyPatch (applyN 1 ⟨some (str ".message_a \n"), none⟩)).2 = _
    rw [h1, happ2]
    rfl
  have hmapeq : extractClassMap (rstripNewlines (str ".message_a \n"))
      = extractClassMap (str ".message_a \n") := by decide
  refine ⟨by rw [happ1], by rw [h1, happ2], ?_⟩
  rw [h1, h2, hmapeq, hrs]
  intro heq
  injection heq with hfile hbackup
  injection hfile with hfile2
  have hlen := congrArg List.length hfile2
  simp only [List.length_append, List.length_cons] at hlen
  rw [(by decide : (str ".message_a ").length = 11),
    (by decide : (str ".message_a \n").length = 12)] at hlen
  omega

/-- Claim C4, amended: for a file whose content contains neither marker, does
not end in a newline, and resolves the mandatory `message` key, running
`applyPatch` twice in a row leaves the same end state (identical file content
and backup) as running it once. -/
theorem c4_idempotent_amended (C : List Char) (b : Option (List Char)) (h0 : List Char)
    (hC : cleanContent C) (hnl : C.getLast? ≠ some '\n')
    (hmsg : (extractClassMap C).message = some h0) :
    applyN 2 ⟨some C, b⟩ = applyN 1 ⟨some C, b⟩ := by
  have hif : (if includes C PATCH_START then removePatchContent C else C) = C := by
    rw [includes_of_firstIdx_none hC.1]
    simp
  have h1 : applyN 1 ⟨some C, b⟩ =
      ⟨some (C ++ '\n' :: generateRtlCss (extractClassMap C)), some (b.getD C)⟩ := by
    show (applyPatch ⟨some C, b⟩).2 = _
    rw [applyPatch_success C C b h0 hif hmsg]
  have hr : rstripNewlines C = C := rstrip_eq_self hnl
  show (applyPatch (applyN 1 ⟨some C, b⟩)).2 = applyN 1 ⟨some C, b⟩
  rw [h1]
  rw [applyPatch_repatch C (some (b.getD C)) hC h0 (by rw [hr]; exact hmsg)]
  rw [hr]
  rfl

/-- Witness for the amended C4 at the concrete content `".message_a "`. -/
theorem c4_idempotent_amended_witness :
    applyN 2 ⟨some (str ".message_a "), none⟩ = applyN 1 ⟨some (str ".message_a "), none⟩ :=
  c4_idempotent_amended (str ".message_a ") none (str "a") ⟨by decide, by decide⟩
    (by decide) (by decide)

/-- Claim C5, counterexample: starting from a file that already contains two
stale fragments, a single successful `applyPatch` leaves two occurrences of
the start marker (the excision only removes from the first start marker to
the first end marker), refuting the invariant for arbitrary initial files. -/
theorem c5_marker_count_counterexample :
    (applyPatch ⟨some (str ".message_a " ++ PATCH_START ++ PATCH_END
        ++ PATCH_START ++ PATCH_END), none⟩).1.success = true ∧
    countOcc PATCH_START ((applyPatch ⟨some (str ".message_a " ++ PATCH_START ++ PATCH_END
        ++ PATCH_START ++ PATCH_END), none⟩).2.file.getD []) = 2 := by
  have happ := applyPatch_success
    (str ".message_a " ++ PATCH_START ++ PATCH_END ++ PATCH_START ++ PATCH_END)
    (str ".message_a " ++ PATCH_START ++ PATCH_END) none (str "a") (by decide) (by decide)
  refine ⟨by rw [happ], ?_⟩
  rw [happ]
  simp only [Option.getD_some]
  rw [countOcc_append_nl PATCH_START _ _ (by decide) (by decide)]
  rw [fragment_countStart _ (hashesSlashFree_extract _)]
  decide

/-- Claim C5, amended: for an initial file content containing neither marker,
after any number `n ≥ 1` of consecutive successful `applyPatch` calls the
file content contains exactly one occurrence of the start marker. -/
theorem c5_marker_count_amended (n : Nat) (C : List Char) (b : Option (List Char))
    (hn : 1 ≤ n) (hC : cleanContent C)
    (hsucc : ∀ k, k < n → (applyPatch (applyN k ⟨some C, b⟩)).1.success = true) :
    countOcc PATCH_START ((applyN n ⟨some C, b⟩).file.getD []) = 1 := by
  obtain ⟨m, rfl⟩ : ∃ m, n = m + 1 := ⟨n - 1, by omega⟩
  have hp1 : patchedFile (applyPatch ⟨some C, b⟩).2 :=
    patchedFile_apply_clean C b hC (hsucc 0 (by omega))
  have hall : ∀ k, k < m →
      (applyPatch (applyN k (applyPatch ⟨some C, b⟩).2)).1.success = true := by
    intro k hk
    exact hsucc (k + 1) (by omega)
  exact patchedFile_count _ (patchedFile_applyN m (applyPatch ⟨some C, b⟩).2 hp1 hall)

/-- Witness for the amended C5 at `n = 1` and content `".message_a "`. -/
theorem c5_marker_count_amended_witness :
    countOcc PATCH_START ((applyN 1 ⟨some (str ".message_a "), none⟩).file.getD []) = 1 :=
  c5_marker_count_amended 1 (str ".message_a ") none (by omega) ⟨by decide, by decide⟩
    (fun k hk => by
      have hk0 : k = 0 := by omega
      subst hk0
      decide)

/-- Claim C6: the resolver returns, for each key, the hash of the first
boundary-terminated occurrence of `.KEY_HASH` (first conjunct: a minimal
occurrence is what `findKey` returns; second conjunct: anything `findKey`
returns is such an occurrence; third conjunct: `extractClassMap`'s `message`
field is `findKey` of `"message"`), and in particular on content containing
both `.messagesContainer_Y{...}` and `.message_X{...}` the key `message`
resolves to `X` and `messagesContainer` to `Y` — no prefix collision. -/
theorem c6_resolver_first_occurrence :
    (∀ name c i h, KeyOccursAt name c i h →
        (∀ j h', KeyOccursAt name c j h' → i ≤ j) →
        findKey name c = some h) ∧
    (∀ name c h, findKey name c = some h → ∃ i, KeyOccursAt name c i h) ∧
    (∀ c, (extractClassMap c).message = findKey (str "message") c) ∧
    (extractClassMap
        (str ".messagesContainer_Y\x7bcolor:red\x7d.message_X\x7bz\x7d")).message
      = some (str "X") ∧
    (extractClassMap
        (str ".messagesContainer_Y\x7bcolor:red\x7d.message_X\x7bz\x7d")).messagesContainer
      = some (str "Y") := by
  refine ⟨?_, ?_, fun c => rfl, by decide, by decide⟩
  · intro name c i h ho hmin
    exact findKey_first ho hmin
  · intro name c h hf
    exact findKey_sound hf

/-- Witness for C6: the characterization applied at the concrete content
`".message_ab "`, whose single occurrence sits at position 0. -/
theorem c6_resolver_witness :
    findKey (str "message") (str ".message_ab ") = some (str "ab") :=
  c6_resolver_first_occurrence.1 (str "message") (str ".message_ab ") 0 (str "ab")
    ⟨by decide, by decide, ' ', [], by decide, by decide⟩
    (fun j h' _ => Nat.zero_le j)

/-- Claim C7, counterexample: the synthesized fragment does not contain a
fallback attribute selector for every other semantic key of the resolver —
for the mapping `{message: "XYZ999"}` the fragment contains the exact
selector `.message_XYZ999`, but no `[class*="chatContainer_"]` selector,
although `chatContainer` is one of the resolver's semantic keys. -/
theorem c7_fallback_counterexample :
    str "chatContainer" ∈ patterns ∧
    includes (generateRtlCss m7) (str ".message_XYZ999") = true ∧
    includes (generateRtlCss m7) (str "[class*=\"chatContainer_\"]") = false := by
  refine ⟨by decide, ?_, ?_⟩
  · exact includes_fragment_line m7 (messageClass m7 ++ str ",") _
      (by simp [rtlLines, rtlBody]) (by decide)
  · have hnone : firstIdx (str "[class*=\"chatContainer_\"]") (generateRtlCss m7)
        = none := by
      rw [generateRtlCss]
      apply firstIdx_joinNL_none _ (by decide) (by decide)
      decide
    simp [includes, hnone]

/-- Claim C7, amended: for each of the eight semantic keys used by the
synthesizer (`message`, `userMessage`, `userMessageContainer`,
`timelineMessage`, `slashCommandMessage`, `slashCommandResultMessage`,
`interruptedMessage`, `progressContent`), `generateRtlCss` emits the exact
class selector `.KEY_HASH` when the mapping contains a hash for that key and
the attribute selector `[class*="KEY_"]` when it does not; for the mapping
containing only `{message: "XYZ999"}` the fragment contains `.message_XYZ999`
and a fallback attribute selector for each of the seven other synthesis
keys. -/
theorem c7_selector_fallback_amended :
    (∀ m : ClassMap,
      (∀ h, m.message = some h →
        includes (generateRtlCss m) (str ".message_" ++ h) = true) ∧
      (m.message = none →
        includes (generateRtlCss m) (str "[class*=\"message_\"]") = true) ∧
      (∀ h, m.userMessage = some h →
        includes (generateRtlCss m) (str ".userMessage_" ++ h) = true) ∧
      (m.userMessage = none →
        includes (generateRtlCss m) (str "[class*=\"userMessage_\"]") = true) ∧
      (∀ h, m.userMessageContainer = some h →
        includes (generateRtlCss m) (str ".userMessageContainer_" ++ h) = true) ∧
      (m.userMessageContainer = none →
        includes (generateRtlCss m) (str "[class*=\"userMessageContainer_\"]") = true) ∧
      (∀ h, m.timelineMessage = some h →
        includes (generateRtlCss m) (str ".timelineMessage_" ++ h) = true) ∧
      (m.timelineMessage = none →
        includes (generateRtlCss m) (str "[class*=\"timelineMessage_\"]") = true) ∧
      (∀ h, m.slashCommandMessage = some h →
        includes (generateRtlCss m) (str ".slashCommandMessage_" ++ h) = true) ∧
      (m.slashCommandMessage = none →
        includes (generateRtlCss m) (str "[class*=\"slashCommandMessage_\"]") = true) ∧
      (∀ h, m.slashCommandResultMessage = some h →
        includes (generateRtlCss m) (str ".slashCommandResultMessage_" ++ h) = true) ∧
      (m.slashCommandResultMessage = none →
        includes (generateRtlCss m)
          (str "[class*=\"slashCommandResultMessage_\"]") = true) ∧
      (∀ h, m.interruptedMessage = some h →
        includes (generateRtlCss m) (str ".interruptedMessage_" ++ h) = true) ∧
      (m.interruptedMessage = none →
        includes (generateRtlCss m) (str "[class*=\"interruptedMessage_\"]") = true) ∧
      (∀ h, m.progressContent = some h →
        includes (generateRtlCss m) (str ".progressContent_" ++ h) = true) ∧
      (m.progressContent = none →
        includes (generateRtlCss m) (str "[class*=\"progressContent_\"]") = true)) ∧
    (includes (generateRtlCss m7) (str ".message_XYZ999") = true ∧
     includes (generateRtlCss m7) (str "[class*=\"userMessage_\"]") = true ∧
     includes (generateRtlCss m7) (str "[class*=\"userMessageContainer_\"]") = true ∧
     includes (generateRtlCss m7) (str "[class*=\"timelineMessage_\"]") = true ∧
     includes (generateRtlCss m7) (str "[class*=\"slashCommandMessage_\"]") = true ∧
     includes (generateRtlCss m7) (str "[class*=\"slashCommandResultMessage_\"]") = true ∧
     includes (generateRtlCss m7) (str "[class*=\"interruptedMessage_\"]") = true ∧
     includes (generateRtlCss m7) (str "[class*=\"progressContent_\"]") = true) := by
  constructor
  · intro m
    refine ⟨fun h hm => ?_, fun hm => ?_, fun h hm => ?_, fun hm => ?_, fun h hm => ?_,
      fun hm => ?_, fun h hm => ?_, fun hm => ?_, fun h hm => ?_, fun hm => ?_,
      fun h hm => ?_, fun hm => ?_, fun h hm => ?_, fun hm => ?_, fun h hm => ?_,
      fun hm => ?_⟩
    · refine includes_fragment_line m (messageClass m ++ str ",") _
        (by simp [rtlLines, rtlBody]) ?_
      rw [messageClass, hm]
      exact includes_self_append _ _
    · refine includes_fragment_line m (messageClass m ++ str ",") _
        (by simp [rtlLines, rtlBody]) ?_
      rw [messageClass, hm]
      exact includes_self_append _ _
    · refine includes_fragment_line m (userMsgClass m ++ str ",") _
        (by simp [rtlLines, rtlBody]) ?_
      rw [userMsgClass, hm]
      exact includes_self_append _ _
    · refine includes_fragment_line m (userMsgClass m ++ str ",") _
        (by simp [rtlLines, rtlBody]) ?_
      rw [userMsgClass, hm]
      exact includes_self_append _ _
    · refine includes_fragment_line m (userMsgContainerClass m ++ str ",") _
        (by simp [rtlLines, rtlBody]) ?_
      rw [userMsgContainerClass, hm]
      exact includes_self_append _ _
    · refine includes_fragment_line m (userMsgContainerClass m ++ str ",") _
        (by simp [rtlLines, rtlBody]) ?_
      rw [userMsgContainerClass, hm]
      exact includes_self_append _ _
    · refine includes_fragment_line m (timelineClass m ++ str ",") _
        (by simp [rtlLines, rtlBody]) ?_
      rw [timelineClass, hm]
      exact includes_self_append _ _
    · refine includes_fragment_line m (timelineClass m ++ str ",") _
        (by simp [rtlLines, rtlBody]) ?_
      rw [timelineClass, hm]
      exact includes_self_append _ _
    · refine includes_fragment_line m (slashCmdClass m ++ str ",") _
        (by simp [rtlLines, rtlBody]) ?_
      rw [slashCmdClass, hm]
      exact includes_self_append _ _
    · refine includes_fragment_line m (slashCmdClass m ++ str ",") _
        (by simp [rtlLines, rtlBody]) ?_
      rw [slashCmdClass, hm]
      exact includes_self_append _ _
    · refine includes_fragment_line m (slashCmdResultClass m ++ str ",") _
        (by simp [rtlLines, rtlBody]) ?_
      rw [slashCmdResultClass, hm]
      exact includes_self_append _ _
    · refine includes_fragment_line m (slashCmdResultClass m ++ str ",") _
        (by simp [rtlLines, rtlBody]) ?_
      rw [slashCmdResultClass, hm]
      exact includes_self_append _ _
    · refine includes_fragment_line m (interruptedClass m ++ str ",") _
        (by simp [rtlLines, rtlBody]) ?_
      rw [interruptedClass, hm]
      exact includes_self_append _ _
    · refine includes_fragment_line m (interruptedClass m ++ str ",") _
        (by simp [rtlLines, rtlBody]) ?_
      rw [interruptedClass, hm]
      exact includes_self_append _ _
    · refine includes_fragment_line m (progressClass m ++ str ",") _
        (by simp [rtlLines, rtlBody]) ?_
      rw [progressClass, hm]
      exact includes_self_append _ _
    · refine includes_fragment_line m (progressClass m ++ str ",") _
        (by simp [rtlLines, rtlBody]) ?_
      rw [progressClass, hm]
      exact includes_self_append _ _
  · refine ⟨?_, ?_, ?_, ?_, ?_, ?_, ?_, ?_⟩
    · exact includes_fragment_line m7 (messageClass m7 ++ str ",") _
        (by simp [rtlLines, rtlBody]) (by decide)
    · exact includes_fragment_line m7 (userMsgClass m7 ++ str ",") _
        (by simp [rtlLines, rtlBody]) (by decide)
    · exact includes_fragment_line m7 (userMsgContainerClass m7 ++ str ",") _
        (by simp [rtlLines, rtlBody]) (by decide)
    · exact includes_fragment_line m7 (timelineClass m7 ++ str ",") _
        (by simp [rtlLines, rtlBody]) (by decide)
    · exact includes_fragment_line m7 (slashCmdClass m7 ++ str ",") _
        (by simp [rtlLines, rtlBody]) (by decide)
    · exact includes_fragment_line m7 (slashCmdResultClass m7 ++ str ",") _
        (by simp [rtlLines, rtlBody]) (by decide)
    · exact includes_fragment_line m7 (interruptedClass m7 ++ str ",") _
        (by simp [rtlLines, rtlBody]) (by decide)
    · exact includes_fragment_line m7 (progressClass m7 ++ str ",") _
        (by simp [rtlLines, rtlBody]) (by decide)

/-- Witness for the amended C7: the exact-selector case applied at the
concrete mapping `m7`. -/
theorem c7_selector_fallback_amended_witness :
    includes (generateRtlCss m7) (str ".message_" ++ str "XYZ999") = true :=
  (c7_selector_fallback_amended.1 m7).1 (str "XYZ999") rfl

/-- Claim C8: determinism of resolution and synthesis — `extractClassMap` and
`generateRtlCss` are pure functions of their input in this embedding, so
byte-identical inputs give identical mappings and byte-identical mappings
give byte-identical fragments. -/
theorem c8_determinism :
    (∀ c1 c2 : List Char, c1 = c2 → extractClassMap c1 = extractClassMap c2) ∧
    (∀ m1 m2 : ClassMap, m1 = m2 → generateRtlCss m1 = generateRtlCss m2) :=
  ⟨fun _ _ h => by rw [h], fun _ _ h => by rw [h]⟩

/-- Witness for C8 at a concrete input. -/
theorem c8_determinism_witness :
    extractClassMap (str ".message_a ") = extractClassMap (str ".message_a ") :=
  c8_determinism.1 (str ".message_a ") (str ".message_a ") rfl

/-- Claim C9: an occurrence of `.message_HASH` whose hash reaches the end of
the content (first conjunct, for every alphanumeric hash), or is followed by
a character outside the boundary class such as `;` or `)` (second and third
conjuncts), is not resolved; and on the file `".message_abc"`, `applyPatch`
fails with the unrecognized-format error leaving the state unchanged. -/
theorem c9_boundary_edge :
    (∀ h : List Char, (∀ ch ∈ h, isAlnum ch = true) →
        (extractClassMap ('.' :: (str "message_" ++ h))).message = none) ∧
    (extractClassMap (str ".message_abc;")).message = none ∧
    (extractClassMap (str ".message_abc)")).message = none ∧
    applyPatch ⟨some (str ".message_abc"), none⟩ =
      ({ success := false, error := some PatchError.unrecognizedFormat, classMap := none },
       ⟨some (str ".message_abc"), none⟩) := by
  refine ⟨?_, by decide, by decide, applyPatch_unrecognized _ none (by decide)⟩
  intro h hal
  show findKey (str "message") ('.' :: (str "message_" ++ h)) = none
  have hs : '.' :: (str "message_" ++ h) = ('.' :: (str "message" ++ ['_'])) ++ h := by
    rw [(by decide : str "message_" = str "message" ++ ['_'])]
    simp
  have hma : matchKeyAt (str "message") ('.' :: (str "message_" ++ h)) = none := by
    rw [hs, matchKeyAt,
      if_pos (prefixOf_append_self ('.' :: (str "message" ++ ['_'])) h)]
    simp only []
    have hdrop : (('.' :: (str "message" ++ ['_'])) ++ h).drop ((str "message").length + 2)
        = h := by
      rw [(by decide : (str "message").length + 2
          = ('.' :: (str "message" ++ ['_'])).length), List.drop_left]
    rw [hdrop, takeWhile_all isAlnum h hal, dropWhile_all isAlnum h hal]
    cases h <;> simp
  rw [findKey, hma]
  apply findKey_none_of_no_dot
  intro hdot
  rcases List.mem_append.mp hdot with hdot | hdot
  · exact absurd hdot (by decide)
  · exact absurd (hal '.' hdot) (by decide)

/-- Witness for C9's general conjunct at the concrete hash `"abc"`. -/
theorem c9_boundary_edge_witness :
    (extractClassMap ('.' :: (str "message_" ++ str "abc"))).message = none :=
  c9_boundary_edge.1 (str "abc") (by decide)

/-- Claim C10: on an existing file with no backup whose content has the start
marker but not the end marker, `revertPatch` reports success with method
`"strip"` yet the state is unchanged (the content — start marker included —
is written back as is), and `checkPatch` still reports the file as patched
afterwards. -/
theorem c10_strip_without_end_marker (C : List Char)
    (hs : includes C PATCH_START = true) (he : includes C PATCH_END = false) :
    revertPatch ⟨some C, none⟩ =
      ({ success := true, error := none, method := some (str "strip") },
       ⟨some C, none⟩) ∧
    checkPatch (revertPatch ⟨some C, none⟩).2 = true := by
  have hE : firstIdx PATCH_END C = none := by
    cases hfe : firstIdx PATCH_END C with
    | none => rfl
    | some k => rw [includes, hfe] at he; exact absurd he (by simp)
  have hrc : removePatchContent C = C := by
    rcases hfs : firstIdx PATCH_START C with _ | k <;> rw [removePatchContent, hfs, hE]
  have hrev : revertPatch ⟨some C, none⟩ =
      ({ success := true, error := none, method := some (str "strip") },
       ⟨some C, none⟩) := by
    rw [revertPatch]
    simp only [hs, if_true, hrc]
  refine ⟨hrev, ?_⟩
  rw [hrev]
  exact hs

/-- Witness for C10 at the content consisting of the start marker alone. -/
theorem c10_strip_witness :
    revertPatch ⟨some PATCH_START, none⟩ =
      ({ success := true, error := none, method := some (str "strip") },
       ⟨some PATCH_START, none⟩) ∧
    checkPatch (revertPatch ⟨some PATCH_START, none⟩).2 = true :=
  c10_strip_without_end_marker PATCH_START (by decide) (by decide)
